import Mathlib

set_option maxRecDepth 1000000

/-!
Shallow embedding of the ragged-array core of `datashader/datatypes.py`
(`RaggedArray`, its validation helper, equality kernels, lexicographic
comparison and concatenation), together with proofs of the specified
properties.

Modelling conventions:
  * a logical row input is `Row := Option (List Int)`: `none` stands for a
    missing row (`None`/`NaN` in the source), `some l` for a sequence row;
    the shared numeric element type is modelled as `Int`;
  * NumPy unsigned offset buffers are modelled as `List Nat` plus the dtype
    width in bits (`width`); arithmetic on an offset buffer wraps modulo
    `2 ^ width'` of the value-based-promoted result dtype, as in the NumPy
    generation this code targets (legacy value-based casting: the dtype of
    `uintW_array + int_scalar` is `promote(uintW, min_scalar_type(scalar))`,
    and addition overflows by wrapping);
  * Python exceptions are `Except RaggedError`; the spec's error kinds map to
    the constructors below (`InvalidLayoutError` → `invalidStartIndicesType` /
    `invalidFlatArrayType` / `invalidOffsets`, `LengthMismatchError` →
    `lengthMismatch`, `IndexError` → `indexError`, `ValueError` on take →
    `takeFillValueError`).
-/

/-- A logical row input: `none` is a missing row (`None`/`NaN`), `some l` a
sequence of numeric values. -/
abbrev Row := Option (List Int)

/-- The concrete values of a row input (a missing row contributes nothing),
as used when `__init__` writes `data[i]` into the flat buffer. -/
def rowVals : Row → List Int
  | none => []
  | some l => l

/-- `len(datum) if not missing(datum) else 0` from `RaggedArray.__init__`. -/
def rowLen (r : Row) : Nat := (rowVals r).length

/-- The row that a store reconstructs for a stored row input: a zero-length
row reads back as the missing sentinel (structural missingness). -/
def normalizeRow (r : Row) : Row :=
  if rowLen r = 0 then none else some (rowVals r)

/-- The error kinds the embedded operations can signal.  Python raises
`ValueError`/`IndexError`; the spec names them `InvalidLayoutError`,
`LengthMismatchError`, `IndexError`, `ValueError`, `CapacityError`. -/
inductive RaggedError
  /-- `_validate_ragged_properties`: `start_indices` is not a 1-D unsigned
  integer ndarray. -/
  | invalidStartIndicesType
  /-- `_validate_ragged_properties`: `flat_array` is not a 1-D ndarray. -/
  | invalidFlatArrayType
  /-- `_validate_ragged_properties`: some offset exceeds the flat buffer
  length; carries the reported values `start_indices[invalid_inds[:10]]`
  and the buffer length from the message. -/
  | invalidOffsets (reported : List Nat) (bufferLen : Nat)
  /-- `RaggedArray.__eq__`: the two stores have different row counts. -/
  | lengthMismatch (n1 n2 : Nat)
  /-- `IndexError` from `__getitem__` / `take`. -/
  | indexError
  /-- `ValueError` from `take(..., allow_fill=True)`; carries the reported
  offending indices `invalid_inds[:9]`. -/
  | takeFillValueError (reported : List Int)
  /-- NumPy `OverflowError`: a start index too large for the chosen offset
  dtype is assigned into the offsets buffer. -/
  | overflowError
  /-- `np.hstack` rejects an empty list of arrays. -/
  | emptyConcat
deriving Repr, DecidableEq

instance exceptDecEq {ε α : Type} [DecidableEq ε] [DecidableEq α] :
    DecidableEq (Except ε α) := fun x y =>
  match x, y with
  | .ok a, .ok b =>
      if h : a = b then .isTrue (by rw [h])
      else .isFalse (by intro hc; cases hc; exact h rfl)
  | .error e, .error f =>
      if h : e = f then .isTrue (by rw [h])
      else .isFalse (by intro hc; cases hc; exact h rfl)
  | .ok _, .error _ => .isFalse (by intro hc; cases hc)
  | .error _, .ok _ => .isFalse (by intro hc; cases hc)

/-- The ragged store: `start_indices` is the unsigned offset buffer (dtype
`uint<width>`, every stored value is `< 2 ^ width`), `flat_array` the flat
value buffer. -/
structure RaggedArray where
  width : Nat
  start_indices : List Nat
  flat_array : List Int
deriving Repr, DecidableEq

/-- The offset-width loop of `RaggedArray.__init__`: try `uint8`, `uint16`,
`uint32`, `uint64` in order and keep the first whose max value is at least
`buffer_len`; the loop falls through to `uint64` when none fits. -/
def chooseWidth (bufferLen : Nat) : Nat :=
  if bufferLen ≤ 2 ^ 8 - 1 then 8
  else if bufferLen ≤ 2 ^ 16 - 1 then 16
  else if bufferLen ≤ 2 ^ 32 - 1 then 32
  else 64

/-- `buffer_len = sum(len(datum) if not missing(datum) else 0 for datum in data)`. -/
def bufferLenOf (data : List Row) : Nat := (data.map rowLen).sum

/-- The single left-to-right pass of `RaggedArray.__init__` writing
`start_indices`: row `i` starts at the cumulative length of rows `0..i-1`
(plus the starting cursor `acc`). -/
def startIndicesOf : List Row → Nat → List Nat
  | [], _ => []
  | r :: rest, acc => acc :: startIndicesOf rest (acc + rowLen r)

/-- The flat value buffer built by `RaggedArray.__init__`: every row's values
back-to-back in row order. -/
def flatOf (data : List Row) : List Int := (data.map rowVals).flatten

/-- `RaggedArray.__init__` on a list of row inputs (the dtype of the value
buffer is element-type inference, not modelled; offsets and flat buffer are).
The constructor never checks a capacity bound: `chooseWidth` silently
returns 64 when even `uint64` cannot represent `buffer_len`. -/
def RaggedArray.fromRows (data : List Row) : RaggedArray :=
  { width := chooseWidth (bufferLenOf data)
  , start_indices := startIndicesOf data 0
  , flat_array := flatOf data }

/-- `RaggedArray.__init__` on a list of row inputs including the failures
NumPy can produce in this path: `np.zeros(index_len, ...)` and
`np.zeros(buffer_len, ...)` raise `OverflowError` whenever the requested
count exceeds the C `ssize_t` max (`2 ^ 63 - 1` on the 64-bit builds this
code runs on), before anything is written.  Within that bound every start
index fits the chosen offset dtype (`buffer_len ≤ 2 ^ 63 - 1 ≤ max` of the
chosen width), so construction succeeds.  There is no `CapacityError` check
anywhere in the source. -/
def RaggedArray.fromRowsChecked (data : List Row) : Except RaggedError RaggedArray :=
  if data.length ≤ 2 ^ 63 - 1 ∧ bufferLenOf data ≤ 2 ^ 63 - 1 then
    .ok (RaggedArray.fromRows data)
  else .error .overflowError

/-- Python slice `l[start:stop]` for `0 ≤ start`, `0 ≤ stop` (out-of-range and
reversed bounds clamp to the empty list, as in Python). -/
def pySlice (l : List Int) (start stop : Nat) : List Int :=
  (l.drop start).take (stop - start)

/-- `slice_start = self.start_indices[item]` from `__getitem__`. -/
def RaggedArray.rowStart (ra : RaggedArray) (item : Nat) : Nat :=
  ra.start_indices.getD item 0

/-- `slice_end = self.start_indices[item+1] if item + 1 <= len(self) - 1 else
len(self.flat_array)` from `__getitem__`: the end of row `item`'s half-open
subrange. -/
def RaggedArray.rowStop (ra : RaggedArray) (item : Nat) : Nat :=
  if item + 1 ≤ ra.start_indices.length - 1 then ra.start_indices.getD (item + 1) 0
  else ra.flat_array.length

/-- The in-range branch of `__getitem__` with an integral index: the subrange
`flat_array[slice_start:slice_end]`, or the missing sentinel when the
subrange is empty. -/
def RaggedArray.getRow (ra : RaggedArray) (item : Nat) : Row :=
  if ra.rowStop item ≠ ra.rowStart item then
    some (pySlice ra.flat_array (ra.rowStart item) (ra.rowStop item))
  else none

/-- `__getitem__` with an integral index: bounds check against `[-N, N)`,
negative indices counted from the end, then the row subrange. -/
def RaggedArray.get (ra : RaggedArray) (i : Int) : Except RaggedError Row :=
  if i < -(ra.start_indices.length : Int) ∨ (ra.start_indices.length : Int) ≤ i then
    .error .indexError
  else
    .ok (ra.getRow (if i < 0 then i + ra.start_indices.length else i).toNat)

/-- All logical rows of a store, in order, as read back by `__getitem__`. -/
def RaggedArray.rowsList (ra : RaggedArray) : List Row :=
  (List.range ra.start_indices.length).map ra.getRow

/-- `[self[i] for i in indices]` from `take` with `allow_fill=False`:
left-to-right, the first out-of-range index raises. -/
def getMany (ra : RaggedArray) : List Int → Except RaggedError (List Row)
  | [] => .ok []
  | i :: rest =>
    match ra.get i with
    | .error e => .error e
    | .ok r =>
      match getMany ra rest with
      | .error e => .error e
      | .ok rs => .ok (r :: rs)

/-- `[self[i] if i >= 0 else fill_value for i in indices]` from `take` with
`allow_fill=True`. -/
def getManyFill (ra : RaggedArray) (fillValue : Row) :
    List Int → Except RaggedError (List Row)
  | [] => .ok []
  | i :: rest =>
    match (if 0 ≤ i then ra.get i else .ok fillValue) with
    | .error e => .error e
    | .ok r =>
      match getManyFill ra fillValue rest with
      | .error e => .error e
      | .ok rs => .ok (r :: rs)

/-- `RaggedArray.take`. -/
def RaggedArray.take (ra : RaggedArray) (indices : List Int) (allowFill : Bool)
    (fillValue : Row) : Except RaggedError RaggedArray :=
  if allowFill then
    match indices.filter (fun i => i < -1) with
    | [] => (getManyFill ra fillValue indices).map RaggedArray.fromRows
    | invalid => .error (.takeFillValueError (invalid.take 9))
  else
    if ra.start_indices.length = 0 ∧ 0 < indices.length then .error .indexError
    else (getMany ra indices).map RaggedArray.fromRows

/-- The boolean-mask loop of `__getitem__`: `for i, m in enumerate(item): if m:
data.append(self[i])`; the cursor starts at `i` and each lookup may raise. -/
def selectRows (ra : RaggedArray) : Nat → List Bool → Except RaggedError (List Row)
  | _, [] => .ok []
  | i, m :: ms =>
    if m then
      match ra.get (i : Int) with
      | .error e => .error e
      | .ok r =>
        match selectRows ra (i + 1) ms with
        | .error e => .error e
        | .ok rs => .ok (r :: rs)
    else selectRows ra (i + 1) ms

/-- `__getitem__` with a boolean ndarray mask: gather the rows at the true
positions, then rebuild a store from them. -/
def RaggedArray.booleanSelect (ra : RaggedArray) (mask : List Bool) :
    Except RaggedError RaggedArray :=
  (selectRows ra 0 mask).map RaggedArray.fromRows

/-- Pure description of what the mask loop gathers when every true position is
in range: the rows at the true positions (cursor starting at `i`), in order. -/
def maskedRows (ra : RaggedArray) : Nat → List Bool → List Row
  | _, [] => []
  | i, m :: ms =>
    if m then ra.getRow i :: maskedRows ra (i + 1) ms
    else maskedRows ra (i + 1) ms

/-- `some_invalid_vals = start_indices[invalid_inds[:10]]` from
`_validate_ragged_properties`: the boolean mask is truncated to its first ten
entries *before* indexing, so only offending values among the first ten
positions are selected (NumPy's legacy tolerance of a short boolean index
pads it with False). -/
def invalidReport (si : List Nat) (m : Nat) : List Nat :=
  (si.take 10).filter (fun s => m < s)

/-- The raw `(start_indices, flat_array)` pair handed to
`_validate_ragged_properties`, with the observable ndarray metadata the
checks read: whether each argument is an ndarray, the dtype kind of
`start_indices` (`'u'` or not), and each argument's `ndim`. -/
structure RawBuffers where
  siIsNdarray : Bool
  siKindUnsigned : Bool
  siNdim : Nat
  startIndices : List Nat
  faIsNdarray : Bool
  faNdim : Nat
  flatArray : List Int
deriving Repr, DecidableEq

/-- `_validate_ragged_properties`. -/
def validateRaggedProperties (raw : RawBuffers) : Except RaggedError Unit :=
  if ¬ (raw.siIsNdarray ∧ raw.siKindUnsigned ∧ raw.siNdim = 1) then
    .error .invalidStartIndicesType
  else if ¬ (raw.faIsNdarray ∧ raw.faNdim = 1) then
    .error .invalidFlatArrayType
  else if raw.startIndices.any (fun s => raw.flatArray.length < s) then
    .error (.invalidOffsets (invalidReport raw.startIndices raw.flatArray.length)
      raw.flatArray.length)
  else .ok ()

/-- `RaggedArray.__init__` on a dict of internally-built buffers (as used by
`_concat_same_type`): these are always 1-D unsigned ndarrays, so only the
offset-value check of `_validate_ragged_properties` can fire. -/
def RaggedArray.fromRaw (width : Nat) (si : List Nat) (fl : List Int) :
    Except RaggedError RaggedArray :=
  if si.any (fun s => fl.length < s) then
    .error (.invalidOffsets (invalidReport si fl.length) fl.length)
  else .ok ⟨width, si, fl⟩

/-- The subrange `flat_array[start_index:stop_index]` that `_eq_ragged_ragged`
extracts for row `i`, with the stop index taken from the next offset for
`i < n - 1` and from the buffer length for the last row (`n` is the common
row count of the two compared stores). -/
def cmpSubrange (ra : RaggedArray) (n i : Nat) : List Int :=
  pySlice ra.flat_array (ra.start_indices.getD i 0)
    (if i < n - 1 then ra.start_indices.getD (i + 1) 0 else ra.flat_array.length)

/-- `_eq_ragged_ragged`: row-by-row exact sequence comparison of the two
stores' subranges (`np.array_equal` on numeric 1-D arrays is sequence
equality). -/
def eqRaggedRagged (ra1 ra2 : RaggedArray) : List Bool :=
  (List.range ra1.start_indices.length).map (fun i =>
    cmpSubrange ra1 ra1.start_indices.length i ==
      cmpSubrange ra2 ra1.start_indices.length i)

/-- The store-vs-store branch of `RaggedArray.__eq__`: row counts must match,
then `_eq_ragged_ragged` produces the mask. -/
def RaggedArray.eq (ra1 ra2 : RaggedArray) : Except RaggedError (List Bool) :=
  if ra1.start_indices.length ≠ ra2.start_indices.length then
    .error (.lengthMismatch ra1.start_indices.length ra2.start_indices.length)
  else .ok (eqRaggedRagged ra1 ra2)

/-- `_lexograph_lt`: walk the zipped prefixes; the first strict inequality
decides; if the common prefix ties, compare lengths. -/
def lexographLt : List Int → List Int → Bool
  | e1 :: r1, e2 :: r2 =>
    if e1 < e2 then true
    else if e2 < e1 then false
    else lexographLt r1 r2
  | l1, l2 => decide (l1.length < l2.length)

/-- The spec's first clause for the ElementView order: at some position inside
both sequences all earlier pairs agree and `a`'s element is smaller — i.e. the
first position where the sequences differ exists and favours `a`. -/
def specFirstDiffSmaller (a b : List Int) : Prop :=
  ∃ i, i < a.length ∧ i < b.length ∧
    (∀ j, j < i → a.getD j 0 = b.getD j 0) ∧ a.getD i 0 < b.getD i 0

/-- The spec's second clause for the ElementView order: every compared pair
over the common prefix is equal. -/
def specCommonPrefixEqual (a b : List Int) : Prop :=
  ∀ j, j < a.length → j < b.length → a.getD j 0 = b.getD j 0

/-- `np.min_scalar_type` for a non-negative Python integer: the smallest
unsigned dtype that can hold the value. -/
def minScalarWidth (v : Nat) : Nat :=
  if v ≤ 2 ^ 8 - 1 then 8
  else if v ≤ 2 ^ 16 - 1 then 16
  else if v ≤ 2 ^ 32 - 1 then 32
  else 64

/-- Result dtype width of `uint<w>_array + offset_scalar` under NumPy's legacy
value-based casting: promote the array dtype with the minimal dtype of the
scalar's value. -/
def shiftWidth (w offset : Nat) : Nat := max w (minScalarWidth offset)

/-- `ra.start_indices + offset` from `_concat_same_type`: element-wise addition
in the promoted unsigned dtype, wrapping modulo `2 ^ width` on overflow. -/
def shiftedStartIndices (ra : RaggedArray) (offset : Nat) : List Nat :=
  ra.start_indices.map (fun s => (s + offset) % 2 ^ shiftWidth ra.width offset)

/-- The shifted offset arrays of `_concat_same_type` (`zip(offsets, to_concat)`
pairs every store with the cumulative flat length of its predecessors), each
with its promoted dtype width. -/
def concatPieces : List RaggedArray → Nat → List (Nat × List Nat)
  | [], _ => []
  | ra :: rest, acc =>
    (shiftWidth ra.width acc, shiftedStartIndices ra acc) ::
      concatPieces rest (acc + ra.flat_array.length)

/-- `RaggedArray._concat_same_type`: concatenate the flat buffers, shift and
concatenate the offset buffers (`np.hstack` promotes the pieces to the widest
dtype, preserving values), then rebuild through the validating dict
constructor.

For a single input the shift scalars come from
`np.hstack([[0], np.cumsum([])])`, and `np.cumsum([])` is an empty *float64*
array, so the lone offsets scalar is `0.0` and `ra.start_indices + 0.0` is a
float-kind array; `_validate_ragged_properties` then rejects it
(`dtype.kind != 'u'`) and every one-store concat raises `ValueError`.  With
two or more inputs the shifts are `np.cumsum` of a non-empty Python-int list
(int64), so the value-based-casting model below applies. -/
def RaggedArray.concatSame (l : List RaggedArray) : Except RaggedError RaggedArray :=
  match l with
  | [] => .error .emptyConcat
  | [_] => .error .invalidStartIndicesType
  | _ =>
    let pieces := concatPieces l 0
    RaggedArray.fromRaw
      ((pieces.map Prod.fst).foldr max 8)
      ((pieces.map Prod.snd).flatten)
      ((l.map RaggedArray.flat_array).flatten)

/-- Invariant 2 of the data model: every offset is at most the flat buffer
length. -/
def StoreValid (ra : RaggedArray) : Prop :=
  ∀ s ∈ ra.start_indices, s ≤ ra.flat_array.length

/-- The widths NumPy unsigned dtypes actually have in this code path. -/
def WidthOk (w : Nat) : Prop := w = 8 ∨ w = 16 ∨ w = 32 ∨ w = 64

/-- Combined flat-buffer length of a list of stores (the combined `M`). -/
def totalFlat (l : List RaggedArray) : Nat :=
  (l.map (fun ra => ra.flat_array.length)).sum

/-- No offset addition performed by `_concat_same_type` (starting from
cumulative shift `acc`) overflows its promoted dtype. -/
def NoWrapFrom : List RaggedArray → Nat → Prop
  | [], _ => True
  | ra :: rest, acc =>
    (∀ s ∈ ra.start_indices, s + acc < 2 ^ shiftWidth ra.width acc) ∧
      NoWrapFrom rest (acc + ra.flat_array.length)

/-- The offsets concatenation the spec prescribes for `concat`: each input's
offsets shifted (in unbounded arithmetic) by the cumulative flat length of the
preceding inputs. -/
def idealSI : List RaggedArray → Nat → List Nat
  | [], _ => []
  | ra :: rest, acc =>
    ra.start_indices.map (· + acc) ++ idealSI rest (acc + ra.flat_array.length)

/-- Invariant 5 of the data model, for monotone offset layouts: offsets are
sorted and bounded by the buffer length, so the row subranges
`[offsets[i], offsets[i+1])` are pairwise disjoint and inside the buffer. -/
def offsetsOrdered (ra : RaggedArray) : Prop :=
  List.Pairwise (· ≤ ·) ra.start_indices ∧
    ∀ s ∈ ra.start_indices, s ≤ ra.flat_array.length

instance noWrapFromDec : (l : List RaggedArray) → (acc : Nat) → Decidable (NoWrapFrom l acc)
  | [], _ => .isTrue trivial
  | ra :: rest, acc =>
    have : Decidable (NoWrapFrom rest (acc + ra.flat_array.length)) :=
      noWrapFromDec rest (acc + ra.flat_array.length)
    inferInstanceAs
      (Decidable ((∀ s ∈ ra.start_indices, s + acc < 2 ^ shiftWidth ra.width acc) ∧
        NoWrapFrom rest (acc + ra.flat_array.length)))

/-- A 200-element two-row store whose offsets need the full `uint8` range
(rows of 100 and 100 zeros). -/
def cexA : RaggedArray :=
  RaggedArray.fromRows [some (List.replicate 100 (0:Int)), some (List.replicate 100 0)]

/-- A 100-element two-row store (rows of 60 and 40 ones); shifting its second
offset by 200 overflows `uint8`. -/
def cexB : RaggedArray :=
  RaggedArray.fromRows [some (List.replicate 60 (1:Int)), some (List.replicate 40 1)]

/-- A 50-element one-row store (one row of 50 twos). -/
def cexC : RaggedArray :=
  RaggedArray.fromRows [some (List.replicate 50 (2:Int))]

/-- Row inputs for a two-row store whose shifted offsets stay below 256. -/
def wRowsA : List Row := [some (List.replicate 100 (0:Int)), some (List.replicate 100 0)]

/-- Row inputs of 50+50 elements: shifted by 200 the offsets reach only 250. -/
def wRowsB : List Row := [some (List.replicate 50 (1:Int)), some (List.replicate 50 1)]

/-- A raw buffer pair whose only invalid offset sits at position 10, past the
truncated reporting window of `_validate_ragged_properties`. -/
def rawNoReport : RawBuffers :=
  ⟨true, true, 1, [0, 0, 0, 0, 0, 0, 0, 0, 0, 0, 99], true, 1, [7, 7, 7, 7, 7]⟩

/-- A raw buffer pair with one invalid offset inside the reporting window. -/
def rawReported : RawBuffers := ⟨true, true, 1, [0, 9], true, 1, [7, 7, 7, 7, 7]⟩

/-- Row inputs whose total element count `2 ^ 64` exceeds the largest `uint64`
value. -/
def hugeRowData : List Row := [some (List.replicate (2 ^ 64) (0:Int))]

/-- Row inputs whose total element count `2 ^ 63` is representable in 64 bits
but exceeds the C `ssize_t` max. -/
def hugeRowData2 : List Row := [some (List.replicate (2 ^ 63) (0:Int))]

/-- A three-row store of singleton rows, used to instantiate the worked
`take` example of the spec. -/
def takeStore : RaggedArray := RaggedArray.fromRows [some [1], some [2], some [3]]

/-- A small store with one missing and one empty row. -/
def smallStore : RaggedArray := RaggedArray.fromRows [some [1, 2], none, some [], some [3]]

/-- A second small store sharing only row 0 with `smallStore`'s rows. -/
def smallStore2 : RaggedArray := RaggedArray.fromRows [some [1, 2], some [5], some [4], none]

/-! ### Basic facts about construction -/

theorem length_startIndicesOf (d : List Row) (acc : Nat) :
    (startIndicesOf d acc).length = d.length := by
  induction d generalizing acc with
  | nil => rfl
  | cons r rest ih => simp [startIndicesOf, ih]

theorem startIndicesOf_add (d : List Row) (a : Nat) :
    ∀ acc, (startIndicesOf d acc).map (· + a) = startIndicesOf d (acc + a) := by
  induction d with
  | nil => intro acc; rfl
  | cons r rest ih =>
    intro acc
    simp only [startIndicesOf, List.map_cons, ih (acc + rowLen r)]
    have : acc + rowLen r + a = acc + a + rowLen r := by omega
    rw [this]

theorem mem_startIndicesOf_bounds (d : List Row) :
    ∀ acc s, s ∈ startIndicesOf d acc → acc ≤ s ∧ s ≤ acc + bufferLenOf d := by
  induction d with
  | nil => intro acc s h; simp [startIndicesOf] at h
  | cons r rest ih =>
    intro acc s h
    simp only [startIndicesOf, List.mem_cons] at h
    rcases h with h | h
    · subst h; simp [bufferLenOf]
    · have := ih (acc + rowLen r) s h
      simp only [bufferLenOf, List.map_cons, List.sum_cons] at *
      omega

theorem bufferLenOf_cons (r : Row) (rest : List Row) :
    bufferLenOf (r :: rest) = rowLen r + bufferLenOf rest := by
  simp [bufferLenOf]

theorem flatOf_cons (r : Row) (rest : List Row) :
    flatOf (r :: rest) = rowVals r ++ flatOf rest := by
  simp [flatOf]

theorem length_flatOf (d : List Row) : (flatOf d).length = bufferLenOf d := by
  induction d with
  | nil => rfl
  | cons r rest ih => simp [flatOf_cons, bufferLenOf_cons, ih, rowLen]

theorem startIndicesOf_append (d1 d2 : List Row) :
    ∀ acc, startIndicesOf (d1 ++ d2) acc =
      startIndicesOf d1 acc ++ startIndicesOf d2 (acc + bufferLenOf d1) := by
  induction d1 with
  | nil => intro acc; simp [startIndicesOf, bufferLenOf]
  | cons r rest ih =>
    intro acc
    simp only [List.cons_append, startIndicesOf, List.cons.injEq, bufferLenOf_cons, true_and]
    rw [show acc + (rowLen r + bufferLenOf rest) = acc + rowLen r + bufferLenOf rest by omega]
    exact ih (acc + rowLen r)

theorem flatOf_append (d1 d2 : List Row) :
    flatOf (d1 ++ d2) = flatOf d1 ++ flatOf d2 := by
  simp [flatOf]

theorem pairwise_startIndicesOf (d : List Row) :
    ∀ acc, List.Pairwise (· ≤ ·) (startIndicesOf d acc) := by
  induction d with
  | nil => intro acc; simp [startIndicesOf]
  | cons r rest ih =>
    intro acc
    simp only [startIndicesOf, List.pairwise_cons]
    refine ⟨fun s hs => ?_, ih (acc + rowLen r)⟩
    have := mem_startIndicesOf_bounds rest (acc + rowLen r) s hs
    omega

theorem fromRows_width (d : List Row) :
    (RaggedArray.fromRows d).width = chooseWidth (bufferLenOf d) := rfl

theorem fromRows_StoreValid (d : List Row) : StoreValid (RaggedArray.fromRows d) := by
  intro s hs
  have h := mem_startIndicesOf_bounds d 0 s hs
  simp only [RaggedArray.fromRows, length_flatOf]
  omega

theorem startIndicesOf_cons (r : Row) (rest : List Row) (acc : Nat) :
    startIndicesOf (r :: rest) acc = acc :: startIndicesOf rest (acc + rowLen r) := rfl

theorem getRow_pad (d : List Row) :
    ∀ (i : Nat) (pre : List Int) (w : Nat), i < d.length →
      RaggedArray.getRow ⟨w, startIndicesOf d pre.length, pre ++ flatOf d⟩ i =
        normalizeRow (d.getD i none) := by
  induction d with
  | nil => intro i pre w h; simp at h
  | cons r rest ih =>
    intro i pre w h
    rw [flatOf_cons, startIndicesOf_cons,
      show pre ++ (rowVals r ++ flatOf rest) = (pre ++ rowVals r) ++ flatOf rest from
        (List.append_assoc pre (rowVals r) (flatOf rest)).symm]
    cases i with
    | zero =>
      have hstop : RaggedArray.rowStop
          ⟨w, pre.length :: startIndicesOf rest (pre.length + rowLen r),
            (pre ++ rowVals r) ++ flatOf rest⟩ 0 = pre.length + rowLen r := by
        cases rest with
        | nil => simp [RaggedArray.rowStop, startIndicesOf, flatOf, rowLen]
        | cons r2 rest2 =>
          simp [RaggedArray.rowStop, startIndicesOf_cons, length_startIndicesOf]
      have hstart : RaggedArray.rowStart
          ⟨w, pre.length :: startIndicesOf rest (pre.length + rowLen r),
            (pre ++ rowVals r) ++ flatOf rest⟩ 0 = pre.length := rfl
      unfold RaggedArray.getRow
      rw [hstop, hstart, List.getD_cons_zero]
      by_cases hr : rowLen r = 0
      · rw [if_neg (by omega)]
        simp [normalizeRow, hr]
      · rw [if_pos (by omega)]
        have hslice : pySlice ((pre ++ rowVals r) ++ flatOf rest) pre.length
            (pre.length + rowLen r) = rowVals r := by
          rw [pySlice, List.append_assoc, List.drop_left,
            show pre.length + rowLen r - pre.length = rowLen r by omega]
          exact List.take_left (rowVals r) (flatOf rest)
        rw [hslice]
        simp [normalizeRow, hr]
    | succ j =>
      have hj : j < rest.length := by simpa using h
      have hlen : (pre ++ rowVals r).length = pre.length + rowLen r := by simp [rowLen]
      have hstart : RaggedArray.rowStart
          ⟨w, pre.length :: startIndicesOf rest (pre.length + rowLen r),
            (pre ++ rowVals r) ++ flatOf rest⟩ (j + 1) =
          RaggedArray.rowStart
          ⟨w, startIndicesOf rest (pre.length + rowLen r),
            (pre ++ rowVals r) ++ flatOf rest⟩ j := by
        simp [RaggedArray.rowStart]
      have hstop : RaggedArray.rowStop
          ⟨w, pre.length :: startIndicesOf rest (pre.length + rowLen r),
            (pre ++ rowVals r) ++ flatOf rest⟩ (j + 1) =
          RaggedArray.rowStop
          ⟨w, startIndicesOf rest (pre.length + rowLen r),
            (pre ++ rowVals r) ++ flatOf rest⟩ j := by
        simp only [RaggedArray.rowStop, List.length_cons, length_startIndicesOf,
          List.getD_cons_succ]
        split_ifs with h1 h2 h2 <;> first | rfl | omega
      unfold RaggedArray.getRow
      rw [hstart, hstop, List.getD_cons_succ]
      have := ih j (pre ++ rowVals r) w hj
      rw [hlen] at this
      rw [← this]
      unfold RaggedArray.getRow
      rfl

theorem getRow_build (d : List Row) (w : Nat) (i : Nat) (h : i < d.length) :
    RaggedArray.getRow ⟨w, startIndicesOf d 0, flatOf d⟩ i = normalizeRow (d.getD i none) := by
  simpa using getRow_pad d i ([] : List Int) w h

theorem getRow_fromRows (d : List Row) (i : Nat) (h : i < d.length) :
    (RaggedArray.fromRows d).getRow i = normalizeRow (d.getD i none) :=
  getRow_build d _ i h

theorem range_map_getD {α β : Type} (d : List α) (dflt : α) (f : α → β) :
    (List.range d.length).map (fun i => f (d.getD i dflt)) = d.map f := by
  induction d with
  | nil => rfl
  | cons x rest ih =>
    simp only [List.length_cons, List.range_succ_eq_map, List.map_cons, List.map_map,
      List.getD_cons_zero, Function.comp_def]
    rw [← ih]
    refine congrArg (List.cons (f x)) ?_
    apply List.map_congr_left
    intro i _
    simp

theorem rowsList_build (d : List Row) (w : Nat) :
    RaggedArray.rowsList ⟨w, startIndicesOf d 0, flatOf d⟩ = d.map normalizeRow := by
  unfold RaggedArray.rowsList
  rw [show (⟨w, startIndicesOf d 0, flatOf d⟩ : RaggedArray).start_indices =
      startIndicesOf d 0 from rfl, length_startIndicesOf,
    ← range_map_getD d none normalizeRow]
  apply List.map_congr_left
  intro i hi
  exact getRow_build d w i (List.mem_range.mp hi)

theorem rowsList_fromRows (d : List Row) :
    (RaggedArray.fromRows d).rowsList = d.map normalizeRow :=
  rowsList_build d _

theorem get_nat_lt (ra : RaggedArray) (i : Nat) (h : i < ra.start_indices.length) :
    ra.get (i : Int) = .ok (ra.getRow i) := by
  unfold RaggedArray.get
  rw [if_neg (by omega), if_neg (by omega), Int.toNat_natCast]

theorem get_nat_ge (ra : RaggedArray) (i : Nat) (h : ra.start_indices.length ≤ i) :
    ra.get (i : Int) = .error .indexError := by
  unfold RaggedArray.get
  rw [if_pos (Or.inr (by exact_mod_cast h))]

/-! ### C4: scalar `__getitem__` -/

/-- C4: `get(i)` accepts any integer in `[-N, N)` (negative `i` counted from
the end) and returns the row's subrange `flat_array[start:stop]`, or the
missing sentinel exactly when `start == stop`; any `i` outside `[-N, N)`
fails with `IndexError`. -/
theorem getitem_spec (ra : RaggedArray) (i : Int) :
    (i < -(ra.start_indices.length : Int) ∨ (ra.start_indices.length : Int) ≤ i →
      ra.get i = .error .indexError) ∧
    (-(ra.start_indices.length : Int) ≤ i → i < (ra.start_indices.length : Int) →
      ra.get i = .ok
        (if ra.rowStart (if i < 0 then i + ra.start_indices.length else i).toNat =
            ra.rowStop (if i < 0 then i + ra.start_indices.length else i).toNat then none
         else some (pySlice ra.flat_array
            (ra.rowStart (if i < 0 then i + ra.start_indices.length else i).toNat)
            (ra.rowStop (if i < 0 then i + ra.start_indices.length else i).toNat)))) := by
  constructor
  · intro h
    unfold RaggedArray.get
    rw [if_pos h]
  · intro h1 h2
    unfold RaggedArray.get
    rw [if_neg (by omega)]
    unfold RaggedArray.getRow
    by_cases hc : ra.rowStart (if i < 0 then i + ra.start_indices.length else i).toNat =
        ra.rowStop (if i < 0 then i + ra.start_indices.length else i).toNat
    · rw [if_neg (fun hne => hne hc.symm), if_pos hc]
    · rw [if_pos (fun he => hc he.symm), if_neg hc]

/-- Witness: `get(-1)` on the 4-row store returns its last row `[3]`. -/
theorem getitem_spec_witness : smallStore.get (-1) = .ok (some [3]) :=
  ((getitem_spec smallStore (-1)).2 (by decide) (by decide)).trans (by decide)

/-! ### C7: store-vs-store equality -/

theorem getD_map_range {β : Type} (n : Nat) (f : Nat → β) (dflt : β) (i : Nat)
    (h : i < n) : ((List.range n).map f).getD i dflt = f i := by
  have hlen : i < ((List.range n).map f).length := by simpa using h
  rw [List.getD_eq_getElem _ _ hlen, List.getElem_map, List.getElem_range]

theorem list_eq_iff_getD (a b : List Int) :
    a = b ↔ a.length = b.length ∧ ∀ j, j < a.length → a.getD j 0 = b.getD j 0 := by
  constructor
  · rintro rfl
    exact ⟨rfl, fun _ _ => rfl⟩
  · rintro ⟨hl, he⟩
    apply List.ext_getElem hl
    intro i h1 h2
    have := he i h1
    rwa [List.getD_eq_getElem _ _ h1, List.getD_eq_getElem _ _ h2] at this

/-- C7: on equal row counts, `__eq__` returns the `_eq_ragged_ragged` mask,
of length N, whose entry `i` is true iff row `i`'s subrange of store 1
equals row `i`'s subrange of store 2 (equal lengths and equal elements);
unequal row counts fail with the length-mismatch error. -/
theorem eq_store_spec (ra1 ra2 : RaggedArray) :
    (ra1.start_indices.length = ra2.start_indices.length →
      ra1.eq ra2 = .ok (eqRaggedRagged ra1 ra2) ∧
      (eqRaggedRagged ra1 ra2).length = ra1.start_indices.length ∧
      (∀ i, i < ra1.start_indices.length →
        ((eqRaggedRagged ra1 ra2).getD i false = true ↔
          (cmpSubrange ra1 ra1.start_indices.length i).length =
              (cmpSubrange ra2 ra1.start_indices.length i).length ∧
            ∀ j, j < (cmpSubrange ra1 ra1.start_indices.length i).length →
              (cmpSubrange ra1 ra1.start_indices.length i).getD j 0 =
                (cmpSubrange ra2 ra1.start_indices.length i).getD j 0))) ∧
    (ra1.start_indices.length ≠ ra2.start_indices.length →
      ra1.eq ra2 = .error (.lengthMismatch ra1.start_indices.length
        ra2.start_indices.length)) := by
  constructor
  · intro h
    refine ⟨?_, ?_, ?_⟩
    · unfold RaggedArray.eq
      rw [if_neg (by omega)]
    · simp [eqRaggedRagged]
    · intro i hi
      unfold eqRaggedRagged
      rw [getD_map_range _ _ _ i hi, beq_iff_eq]
      exact list_eq_iff_getD _ _
  · intro h
    unfold RaggedArray.eq
    rw [if_pos h]

/-- Witness: the mask of `smallStore == smallStore2` is true exactly at the
one index whose rows agree. -/
theorem eq_store_spec_witness :
    smallStore.eq smallStore2 = .ok [true, false, false, false] :=
  ((eq_store_spec smallStore smallStore2).1 (by decide)).1.trans (by decide)

/-! ### C8: lexicographic row ordering -/

/-- C8: `_lexograph_lt a b` holds iff at the first position where the two
sequences differ `a`'s element is smaller, or — when every compared pair over
the common prefix is equal — `a` is strictly shorter than `b`. -/
theorem lexograph_lt_spec (a b : List Int) :
    lexographLt a b = true ↔
      specFirstDiffSmaller a b ∨
        (specCommonPrefixEqual a b ∧ a.length < b.length) := by
  induction a generalizing b with
  | nil =>
    cases b with
    | nil => simp [lexographLt, specFirstDiffSmaller, specCommonPrefixEqual]
    | cons y ys => simp [lexographLt, specFirstDiffSmaller, specCommonPrefixEqual]
  | cons x xs ih =>
    cases b with
    | nil => simp [lexographLt, specFirstDiffSmaller, specCommonPrefixEqual]
    | cons y ys =>
      by_cases hxy : x < y
      · simp only [lexographLt, if_pos hxy, true_iff]
        left
        refine ⟨0, by simp, by simp, fun j hj => absurd hj (Nat.not_lt_zero j), by simpa⟩
      · by_cases hyx : y < x
        · simp only [lexographLt, if_neg hxy, if_pos hyx, Bool.false_eq_true, false_iff]
          rintro (⟨i, hia, hib, hpre, hlt⟩ | ⟨hcomm, _⟩)
          · cases i with
            | zero => simp at hlt; omega
            | succ k =>
              have h0 := hpre 0 (Nat.succ_pos k)
              simp at h0
              omega
          · have h0 := hcomm 0 (by simp) (by simp)
            simp at h0
            omega
        · have hxy' : x = y := by omega
          subst hxy'
          simp only [lexographLt, if_neg hxy, if_neg hyx]
          rw [ih ys]
          constructor
          · rintro (⟨i, hia, hib, hpre, hlt⟩ | ⟨hcomm, hlen⟩)
            · left
              refine ⟨i + 1, by simpa using hia, by simpa using hib, ?_, by simpa using hlt⟩
              intro j hj
              cases j with
              | zero => rfl
              | succ k =>
                simp only [List.getD_cons_succ]
                exact hpre k (by omega)
            · right
              constructor
              · intro j hja hjb
                cases j with
                | zero => rfl
                | succ k =>
                  simp only [List.getD_cons_succ]
                  exact hcomm k (by simpa using hja) (by simpa using hjb)
              · simpa using hlen
          · rintro (⟨i, hia, hib, hpre, hlt⟩ | ⟨hcomm, hlen⟩)
            · cases i with
              | zero => simp at hlt
              | succ k =>
                left
                refine ⟨k, by simpa using hia, by simpa using hib, ?_, by simpa using hlt⟩
                intro j hj
                have := hpre (j + 1) (by omega)
                simpa using this
            · right
              refine ⟨?_, by simpa using hlen⟩
              intro j hja hjb
              have := hcomm (j + 1) (by simpa using hja) (by simpa using hjb)
              simpa using this

/-! ### C6: raw-pair validation -/

/-- C6 (amended): construction from a raw pair succeeds iff `start_indices`
is a 1-D unsigned ndarray, `flat_array` a 1-D ndarray and every offset is at
most the buffer length; an offset failure reports the offending values among
the first ten positions only (possibly none), with the buffer length. -/
theorem validate_spec (raw : RawBuffers) :
    (validateRaggedProperties raw = .ok () ↔
      (raw.siIsNdarray ∧ raw.siKindUnsigned ∧ raw.siNdim = 1 ∧
       raw.faIsNdarray ∧ raw.faNdim = 1 ∧
       ∀ s ∈ raw.startIndices, s ≤ raw.flatArray.length)) ∧
    ((raw.siIsNdarray ∧ raw.siKindUnsigned ∧ raw.siNdim = 1) →
      (raw.faIsNdarray ∧ raw.faNdim = 1) →
      (∃ s ∈ raw.startIndices, raw.flatArray.length < s) →
      validateRaggedProperties raw =
        .error (.invalidOffsets
          (invalidReport raw.startIndices raw.flatArray.length)
          raw.flatArray.length)) := by
  constructor
  · unfold validateRaggedProperties
    by_cases hA : (raw.siIsNdarray : Prop) ∧ (raw.siKindUnsigned : Prop) ∧ raw.siNdim = 1
    · rw [if_neg (not_not_intro hA)]
      by_cases hB : (raw.faIsNdarray : Prop) ∧ raw.faNdim = 1
      · rw [if_neg (not_not_intro hB)]
        by_cases hany :
            (raw.startIndices.any fun s => decide (raw.flatArray.length < s)) = true
        · rw [if_pos hany]
          refine iff_of_false (by simp) ?_
          rintro ⟨-, -, -, -, -, hall⟩
          obtain ⟨s, hs, hlt⟩ := List.any_eq_true.mp hany
          have := hall s hs
          simp only [decide_eq_true_eq] at hlt
          omega
        · rw [if_neg hany]
          refine iff_of_true rfl ⟨hA.1, hA.2.1, hA.2.2, hB.1, hB.2, ?_⟩
          intro s hs
          by_contra hgt
          exact hany (List.any_eq_true.mpr ⟨s, hs, by simp; omega⟩)
      · rw [if_pos hB]
        exact iff_of_false (by simp) (fun h => hB ⟨h.2.2.2.1, h.2.2.2.2.1⟩)
    · rw [if_pos hA]
      exact iff_of_false (by simp) (fun h => hA ⟨h.1, h.2.1, h.2.2.1⟩)
  · intro hA hB hex
    unfold validateRaggedProperties
    obtain ⟨s, hs, hlt⟩ := hex
    rw [if_neg (not_not_intro hA), if_neg (not_not_intro hB),
      if_pos (List.any_eq_true.mpr ⟨s, hs, by simpa using hlt⟩)]

/-- Witness: an offending offset inside the reporting window is reported
together with the buffer length it violates. -/
theorem validate_spec_witness :
    validateRaggedProperties rawReported = .error (.invalidOffsets [9] 5) :=
  ((validate_spec rawReported).2 (by decide) (by decide) (by decide)).trans (by decide)

/-- C6 counterexample: a well-typed raw pair whose only offending offset
(99, against buffer length 5) sits at position 10 fails with an *empty*
report — the first offending offset value is not included in the report. -/
theorem validate_report_cex :
    validateRaggedProperties rawNoReport = .error (.invalidOffsets [] 5) ∧
    99 ∈ rawNoReport.startIndices ∧ 5 < 99 ∧
    (99 : Nat) ∉ ([] : List Nat) := by decide

/-! ### C2: offset width selection, no capacity error -/

theorem chooseWidth_sufficient (m : Nat) (h : m ≤ 2 ^ 64 - 1) :
    m ≤ 2 ^ chooseWidth m - 1 := by
  unfold chooseWidth
  split_ifs <;> assumption

theorem chooseWidth_minimal (m w : Nat) (hw : WidthOk w) (h : m ≤ 2 ^ w - 1) :
    chooseWidth m ≤ w := by
  unfold chooseWidth
  rcases hw with rfl | rfl | rfl | rfl
  · rw [if_pos h]
  · split_ifs <;> norm_num
  · split_ifs <;> norm_num
  · split_ifs <;> norm_num

/-- C2 (amended): construction never raises a capacity error.  The width
loop picks the smallest of 8/16/32/64 bits whose max value is at least `M`,
falling through to 64 bits when even that is insufficient.  Construction
succeeds whenever the row count and `M` are at most the C `ssize_t` max
`2 ^ 63 - 1`; for any larger `M` — every `M` above the `uint64` max, but
also `M` in `(2 ^ 63 - 1, 2 ^ 64 - 1]`, which 64 bits could represent —
`np.zeros(buffer_len, ...)` raises NumPy's `OverflowError` at allocation,
never a `CapacityError`. -/
theorem width_selection_spec (data : List Row) :
    (data.length ≤ 2 ^ 63 - 1 → bufferLenOf data ≤ 2 ^ 63 - 1 →
      RaggedArray.fromRowsChecked data = .ok (RaggedArray.fromRows data)) ∧
    (RaggedArray.fromRows data).width = chooseWidth (bufferLenOf data) ∧
    (bufferLenOf data ≤ 2 ^ 64 - 1 →
      bufferLenOf data ≤ 2 ^ chooseWidth (bufferLenOf data) - 1) ∧
    (∀ w, WidthOk w → bufferLenOf data ≤ 2 ^ w - 1 →
      chooseWidth (bufferLenOf data) ≤ w) ∧
    (2 ^ 64 - 1 < bufferLenOf data → chooseWidth (bufferLenOf data) = 64) ∧
    (2 ^ 63 - 1 < bufferLenOf data →
      RaggedArray.fromRowsChecked data = .error .overflowError) := by
  refine ⟨?_, rfl, fun h => chooseWidth_sufficient _ h,
    fun w hw h => chooseWidth_minimal _ w hw h, ?_, ?_⟩
  · intro h1 h2
    unfold RaggedArray.fromRowsChecked
    rw [if_pos ⟨h1, h2⟩]
  · intro h
    have p1 : (2:Nat) ^ 8 - 1 ≤ 2 ^ 64 - 1 := by norm_num
    have p2 : (2:Nat) ^ 16 - 1 ≤ 2 ^ 64 - 1 := by norm_num
    have p3 : (2:Nat) ^ 32 - 1 ≤ 2 ^ 64 - 1 := by norm_num
    unfold chooseWidth
    rw [if_neg (by omega), if_neg (by omega), if_neg (by omega)]
  · intro h
    unfold RaggedArray.fromRowsChecked
    rw [if_neg ?_]
    rintro ⟨-, h2⟩
    omega

/-- Witness: a 2-element input succeeds and chooses `uint8`. -/
theorem width_selection_witness :
    RaggedArray.fromRowsChecked [some [1, 2], none] =
      .ok (RaggedArray.fromRows [some [1, 2], none]) ∧
    (RaggedArray.fromRows [some [1, 2], none]).width = 8 :=
  ⟨(width_selection_spec [some [1, 2], none]).1 (by decide) (by decide),
   (width_selection_spec [some [1, 2], none]).2.1.trans (by decide)⟩

/-- C2 counterexample: the code has no `CapacityError`.  A single row of
`2 ^ 64` elements makes `M` exceed the `uint64` max; the width loop still
falls through to 64 bits, and construction fails with NumPy's
`OverflowError` at buffer allocation (the count exceeds the C `ssize_t`
max) — not with a `CapacityError`.  Moreover a single row of `2 ^ 63`
elements is representable in 64 bits, yet construction fails the same way,
refuting the claim's "for every representable `M` construction
succeeds". -/
theorem capacity_cex :
    RaggedArray.fromRowsChecked hugeRowData = .error .overflowError ∧
    (RaggedArray.fromRows hugeRowData).width = 64 ∧
    2 ^ 64 - 1 < bufferLenOf hugeRowData ∧
    RaggedArray.fromRowsChecked hugeRowData2 = .error .overflowError ∧
    bufferLenOf hugeRowData2 ≤ 2 ^ 64 - 1 := by
  have hb : bufferLenOf hugeRowData = 2 ^ 64 := by
    unfold bufferLenOf hugeRowData
    rw [List.map_cons, List.map_nil, List.sum_cons, List.sum_nil,
      show rowLen (some (List.replicate (2 ^ 64) (0:Int))) =
        (List.replicate (2 ^ 64) (0:Int)).length from rfl,
      List.length_replicate]
    omega
  have hb2 : bufferLenOf hugeRowData2 = 2 ^ 63 := by
    unfold bufferLenOf hugeRowData2
    rw [List.map_cons, List.map_nil, List.sum_cons, List.sum_nil,
      show rowLen (some (List.replicate (2 ^ 63) (0:Int))) =
        (List.replicate (2 ^ 63) (0:Int)).length from rfl,
      List.length_replicate]
    omega
  refine ⟨?_, ?_, ?_, ?_, ?_⟩
  · unfold RaggedArray.fromRowsChecked
    rw [if_neg ?_]
    rintro ⟨-, h⟩
    rw [hb] at h
    norm_num at h
  · rw [fromRows_width, hb]
    simp only [chooseWidth]
    norm_num
  · rw [hb]
    norm_num
  · unfold RaggedArray.fromRowsChecked
    rw [if_neg ?_]
    rintro ⟨-, h⟩
    rw [hb2] at h
    norm_num at h
  · rw [hb2]
    norm_num

/-! ### C3, C5: take -/

theorem get_nonneg_lt (ra : RaggedArray) (i : Int) (h0 : 0 ≤ i)
    (h : i < (ra.start_indices.length : Int)) :
    ra.get i = .ok (ra.getRow i.toNat) := by
  have hcast : (i.toNat : Int) = i := Int.toNat_of_nonneg h0
  rw [← hcast]
  apply get_nat_lt
  omega

theorem get_nonneg_ge (ra : RaggedArray) (i : Int) (h : (ra.start_indices.length : Int) ≤ i) :
    ra.get i = .error .indexError := by
  unfold RaggedArray.get
  rw [if_pos (Or.inr h)]

theorem getManyFill_ok (ra : RaggedArray) (fv : Row) (idx : List Int)
    (h1 : ∀ i ∈ idx, -1 ≤ i) (h2 : ∀ i ∈ idx, i < (ra.start_indices.length : Int)) :
    getManyFill ra fv idx =
      .ok (idx.map (fun i => if 0 ≤ i then ra.getRow i.toNat else fv)) := by
  induction idx with
  | nil => rfl
  | cons i rest ih =>
    have hi2 := h2 i (by simp)
    unfold getManyFill
    by_cases hpos : (0:Int) ≤ i
    · rw [if_pos hpos, get_nonneg_lt ra i hpos hi2,
        ih (fun j hj => h1 j (by simp [hj])) (fun j hj => h2 j (by simp [hj]))]
      simp [hpos]
    · rw [if_neg hpos,
        ih (fun j hj => h1 j (by simp [hj])) (fun j hj => h2 j (by simp [hj]))]
      simp [hpos]

theorem getManyFill_err (ra : RaggedArray) (fv : Row) (idx : List Int)
    (hex : ∃ i ∈ idx, (ra.start_indices.length : Int) ≤ i) :
    getManyFill ra fv idx = .error .indexError := by
  induction idx with
  | nil => obtain ⟨i, hi, -⟩ := hex; simp at hi
  | cons i rest ih =>
    unfold getManyFill
    by_cases hbig : (ra.start_indices.length : Int) ≤ i
    · have h0 : (0:Int) ≤ i := le_trans (by positivity) hbig
      rw [if_pos h0, get_nonneg_ge ra i hbig]
    · have hex' : ∃ j ∈ rest, (ra.start_indices.length : Int) ≤ j := by
        obtain ⟨j, hj, hjb⟩ := hex
        rcases List.mem_cons.mp hj with rfl | hj'
        · omega
        · exact ⟨j, hj', hjb⟩
      by_cases hpos : (0:Int) ≤ i
      · rw [if_pos hpos, get_nonneg_lt ra i hpos (by omega), ih hex']
      · rw [if_neg hpos, ih hex']

theorem get_ok_or_indexError (ra : RaggedArray) (i : Int) :
    (∃ r, ra.get i = .ok r) ∨ ra.get i = .error .indexError := by
  unfold RaggedArray.get
  split_ifs <;> first | exact Or.inr rfl | exact Or.inl ⟨_, rfl⟩

theorem getManyFill_shape (ra : RaggedArray) (fv : Row) (idx : List Int) :
    (∃ l, getManyFill ra fv idx = .ok l) ∨ getManyFill ra fv idx = .error .indexError := by
  induction idx with
  | nil => exact Or.inl ⟨[], rfl⟩
  | cons i rest ih =>
    unfold getManyFill
    by_cases hpos : (0:Int) ≤ i
    · rw [if_pos hpos]
      rcases get_ok_or_indexError ra i with ⟨r, hr⟩ | hr
      · rw [hr]
        rcases ih with ⟨l, hl⟩ | hl
        · rw [hl]; exact Or.inl ⟨r :: l, rfl⟩
        · rw [hl]; exact Or.inr rfl
      · rw [hr]; exact Or.inr rfl
    · rw [if_neg hpos]
      rcases ih with ⟨l, hl⟩ | hl
      · rw [hl]; exact Or.inl ⟨fv :: l, rfl⟩
      · rw [hl]; exact Or.inr rfl

theorem filter_offenders_nil (idx : List Int) (h : ∀ i ∈ idx, -1 ≤ i) :
    idx.filter (fun i => i < -1) = [] := by
  rw [List.filter_eq_nil_iff]
  intro i hi
  simp only [decide_eq_true_eq]
  have := h i hi
  omega

theorem take_true_offenders (ra : RaggedArray) (fv : Row) (indices : List Int)
    (hex : ∃ i ∈ indices, i < -1) :
    ra.take indices true fv =
      .error (.takeFillValueError ((indices.filter (fun i => i < -1)).take 9)) := by
  unfold RaggedArray.take
  rw [if_pos rfl]
  obtain ⟨i, hi, hlt⟩ := hex
  rcases hf : indices.filter (fun i => i < -1) with - | ⟨x, xs⟩
  · exfalso
    have hmem : i ∈ indices.filter (fun i => i < -1) :=
      List.mem_filter.mpr ⟨hi, by simpa using hlt⟩
    rw [hf] at hmem
    simp at hmem
  · rw [hf]

theorem take_true_no_offenders_shape (ra : RaggedArray) (fv : Row) (indices : List Int)
    (h : ∀ i ∈ indices, -1 ≤ i) :
    ra.take indices true fv = (getManyFill ra fv indices).map RaggedArray.fromRows := by
  unfold RaggedArray.take
  rw [if_pos rfl, filter_offenders_nil indices h]

theorem take_true_ok (ra : RaggedArray) (fv : Row) (indices : List Int)
    (h1 : ∀ i ∈ indices, -1 ≤ i)
    (h2 : ∀ i ∈ indices, i < (ra.start_indices.length : Int)) :
    ra.take indices true fv =
      .ok (RaggedArray.fromRows (indices.map
        (fun i => if 0 ≤ i then ra.getRow i.toNat else fv))) := by
  rw [take_true_no_offenders_shape ra fv indices h1, getManyFill_ok ra fv indices h1 h2]
  rfl

theorem take_true_index_err (ra : RaggedArray) (fv : Row) (indices : List Int)
    (h1 : ∀ i ∈ indices, -1 ≤ i)
    (hex : ∃ i ∈ indices, (ra.start_indices.length : Int) ≤ i) :
    ra.take indices true fv = .error .indexError := by
  rw [take_true_no_offenders_shape ra fv indices h1, getManyFill_err ra fv indices hex]
  rfl

/-- C5 (amended): with `allow_fill=True`, `take` fails with `ValueError`
naming the offending indices (at most the first nine, in order) iff some
index is `< -1`; otherwise each index `-1` yields `fill_value` and each
in-bounds non-negative index yields the corresponding row — but a
non-negative index `≥ N` fails with `IndexError` rather than yielding a
row. -/
theorem take_fill_spec (ra : RaggedArray) (indices : List Int) (fillValue : Row) :
    ((∃ i ∈ indices, i < -1) →
      ra.take indices true fillValue =
        .error (.takeFillValueError ((indices.filter (fun i => i < -1)).take 9))) ∧
    ((∀ i ∈ indices, -1 ≤ i) → ∀ rep,
      ra.take indices true fillValue ≠ .error (.takeFillValueError rep)) ∧
    ((∀ i ∈ indices, -1 ≤ i) →
      (∀ i ∈ indices, i < (ra.start_indices.length : Int)) →
      ra.take indices true fillValue =
        .ok (RaggedArray.fromRows (indices.map
          (fun i => if 0 ≤ i then ra.getRow i.toNat else fillValue)))) ∧
    ((∀ i ∈ indices, -1 ≤ i) →
      (∃ i ∈ indices, (ra.start_indices.length : Int) ≤ i) →
      ra.take indices true fillValue = .error .indexError) := by
  refine ⟨take_true_offenders ra fillValue indices, ?_, take_true_ok ra fillValue indices,
    take_true_index_err ra fillValue indices⟩
  intro h rep heq
  rw [take_true_no_offenders_shape ra fillValue indices h] at heq
  rcases getManyFill_shape ra fillValue indices with ⟨l, hl⟩ | hl <;>
    rw [hl] at heq <;> simp [Except.map] at heq

/-- Witness: the spec's worked example — `take([0, -1], allow_fill=True,
fill_value=None)` on a 3-row store returns row 0 then a missing row. -/
theorem take_fill_spec_witness :
    takeStore.take [0, -1] true none = .ok (RaggedArray.fromRows [some [1], none]) :=
  ((take_fill_spec takeStore [0, -1] none).2.2.1 (by decide) (by decide)).trans (by decide)

/-- C5 counterexample: with no index `< -1`, `take([5], allow_fill=True)` on
a 1-row store raises `IndexError` instead of yielding the (non-existent)
corresponding row. -/
theorem take_fill_cex :
    ([(5:Int)].filter (fun i => i < -1)) = [] ∧
    (RaggedArray.fromRows [some [1]]).take [5] true none = .error .indexError := by
  decide

/-- C3 (amended): on a zero-row store with non-empty indices,
`allow_fill=False` always fails with `IndexError`; `allow_fill=True` fails
with `ValueError` when some index is `< -1`, fails with `IndexError` when
all indices are `≥ -1` and at least one is non-negative, and *succeeds* with
fill rows when every index equals `-1`. -/
theorem take_empty_spec (ra : RaggedArray) (indices : List Int) (fillValue : Row)
    (hN : ra.start_indices.length = 0) (hne : indices ≠ []) :
    (ra.take indices false fillValue = .error .indexError) ∧
    ((∃ i ∈ indices, i < -1) →
      ra.take indices true fillValue =
        .error (.takeFillValueError ((indices.filter (fun i => i < -1)).take 9))) ∧
    ((∀ i ∈ indices, -1 ≤ i) → (∃ i ∈ indices, 0 ≤ i) →
      ra.take indices true fillValue = .error .indexError) ∧
    ((∀ i ∈ indices, i = -1) →
      ra.take indices true fillValue =
        .ok (RaggedArray.fromRows (indices.map (fun _ => fillValue)))) := by
  refine ⟨?_, take_true_offenders ra fillValue indices, ?_, ?_⟩
  · unfold RaggedArray.take
    rw [if_neg (by simp), if_pos ⟨hN, List.length_pos.mpr hne⟩]
  · intro h1 hex
    apply take_true_index_err ra fillValue indices h1
    obtain ⟨i, hi, h0⟩ := hex
    exact ⟨i, hi, by rw [hN]; simpa using h0⟩
  · intro hall
    have h1 : ∀ i ∈ indices, -1 ≤ i := fun i hi => by rw [hall i hi]
    have h2 : ∀ i ∈ indices, i < (ra.start_indices.length : Int) := fun i hi => by
      rw [hall i hi]
      have := Int.natCast_nonneg ra.start_indices.length
      omega
    rw [take_true_ok ra fillValue indices h1 h2]
    refine congrArg Except.ok (congrArg RaggedArray.fromRows ?_)
    apply List.map_congr_left
    intro i hi
    rw [hall i hi]
    simp

/-- Witness: on the zero-row store, `take([-1], allow_fill=True)` returns a
single missing row. -/
theorem take_empty_spec_witness :
    (RaggedArray.fromRows []).take [-1] true none = .ok (RaggedArray.fromRows [none]) :=
  ((take_empty_spec (RaggedArray.fromRows []) [-1] none (by decide) (by decide)).2.2.2
    (by decide)).trans (by decide)

/-- C3 counterexample: the zero-row store with the non-empty index list
`[-1]` and `allow_fill=True` does **not** fail with `IndexError` — the take
succeeds and returns one missing row. -/
theorem take_empty_cex :
    (RaggedArray.fromRows []).take [-1] true none = .ok (RaggedArray.fromRows [none]) ∧
    ([(-1 : Int)] ≠ []) ∧ (RaggedArray.fromRows []).start_indices.length = 0 := by
  decide

/-! ### C10: boolean-mask selection -/

theorem selectRows_ok (ra : RaggedArray) (ms : List Bool) :
    ∀ i, (∀ p, p < ms.length → ms.getD p false = true →
        i + p < ra.start_indices.length) →
      selectRows ra i ms = .ok (maskedRows ra i ms) := by
  induction ms with
  | nil => intro i _; rfl
  | cons m rest ih =>
    intro i h
    unfold selectRows maskedRows
    cases m with
    | false =>
      rw [if_neg (by simp), if_neg (by simp)]
      exact ih (i + 1) (fun p hp hv => by
        have := h (p + 1) (by simpa using hp) (by simpa using hv)
        omega)
    | true =>
      rw [if_pos rfl, if_pos rfl]
      have hi : i < ra.start_indices.length := by
        have := h 0 (by simp) (by simp)
        omega
      rw [get_nat_lt ra i hi, ih (i + 1) (fun p hp hv => by
        have := h (p + 1) (by simpa using hp) (by simpa using hv)
        omega)]

theorem selectRows_err (ra : RaggedArray) (ms : List Bool) :
    ∀ i p, p < ms.length → ms.getD p false = true →
      ra.start_indices.length ≤ i + p →
      selectRows ra i ms = .error .indexError := by
  induction ms with
  | nil => intro i p hp _ _; simp at hp
  | cons m rest ih =>
    intro i p hp hv hge
    unfold selectRows
    cases m with
    | false =>
      rw [if_neg (by simp)]
      cases p with
      | zero => simp at hv
      | succ q => exact ih (i + 1) q (by simpa using hp) (by simpa using hv) (by omega)
    | true =>
      rw [if_pos rfl]
      by_cases hi : i < ra.start_indices.length
      · rw [get_nat_lt ra i hi]
        cases p with
        | zero => omega
        | succ q => rw [ih (i + 1) q (by simpa using hp) (by simpa using hv) (by omega)]
      · rw [get_nat_ge ra i (by omega)]

/-- C10: a boolean mask shorter than the store (`k < N`) selects, without
raising, the rows at the true positions among the first `k`, in original
order; a mask with a true entry at a position `≥ N` fails with
`IndexError`. -/
theorem boolean_select_spec (ra : RaggedArray) (mask : List Bool) :
    (mask.length < ra.start_indices.length →
      ra.booleanSelect mask = .ok (RaggedArray.fromRows (maskedRows ra 0 mask))) ∧
    (∀ p, p < mask.length → mask.getD p false = true →
      ra.start_indices.length ≤ p →
      ra.booleanSelect mask = .error .indexError) := by
  constructor
  · intro h
    unfold RaggedArray.booleanSelect
    rw [selectRows_ok ra mask 0 (fun p hp _ => by omega)]
    rfl
  · intro p hp hv hge
    unfold RaggedArray.booleanSelect
    rw [selectRows_err ra mask 0 p hp hv (by omega)]
    rfl

/-- Witness: a 2-element mask on the 4-row store selects among the first two
rows only and succeeds. -/
theorem boolean_select_spec_witness :
    smallStore.booleanSelect [true, false] = .ok (RaggedArray.fromRows [some [1, 2]]) :=
  ((boolean_select_spec smallStore [true, false]).1 (by decide)).trans (by decide)

/-! ### Concatenation machinery (C1, C9) -/

theorem fromRows_flat_len (d : List Row) :
    (RaggedArray.fromRows d).flat_array.length = bufferLenOf d :=
  length_flatOf d

theorem shiftedStartIndices_noWrap (ra : RaggedArray) (offset : Nat)
    (h : ∀ s ∈ ra.start_indices, s + offset < 2 ^ shiftWidth ra.width offset) :
    shiftedStartIndices ra offset = ra.start_indices.map (· + offset) := by
  unfold shiftedStartIndices
  apply List.map_congr_left
  intro s hs
  exact Nat.mod_eq_of_lt (h s hs)

theorem concatPieces_si_noWrap (l : List RaggedArray) :
    ∀ acc, NoWrapFrom l acc →
      ((concatPieces l acc).map Prod.snd).flatten = idealSI l acc := by
  induction l with
  | nil => intro acc _; rfl
  | cons ra rest ih =>
    intro acc h
    have h' : (∀ s ∈ ra.start_indices, s + acc < 2 ^ shiftWidth ra.width acc) ∧
        NoWrapFrom rest (acc + ra.flat_array.length) := h
    unfold concatPieces idealSI
    simp only [List.map_cons, List.flatten_cons]
    rw [shiftedStartIndices_noWrap ra acc h'.1, ih (acc + ra.flat_array.length) h'.2]

theorem idealSI_le (l : List RaggedArray) :
    ∀ acc s, (∀ ra ∈ l, StoreValid ra) → s ∈ idealSI l acc →
      s ≤ acc + totalFlat l := by
  induction l with
  | nil => intro acc s _ hs; simp [idealSI] at hs
  | cons ra rest ih =>
    intro acc s hv hs
    unfold idealSI at hs
    unfold totalFlat
    simp only [List.map_cons, List.sum_cons]
    rcases List.mem_append.mp hs with hs | hs
    · obtain ⟨t, ht, rfl⟩ := List.mem_map.mp hs
      have := hv ra (by simp) t ht
      omega
    · have := ih (acc + ra.flat_array.length) s (fun rb hb => hv rb (by simp [hb])) hs
      unfold totalFlat at this
      omega

theorem length_concat_flat (l : List RaggedArray) :
    ((l.map RaggedArray.flat_array).flatten).length = totalFlat l := by
  induction l with
  | nil => rfl
  | cons ra rest ih =>
    unfold totalFlat at *
    simp only [List.map_cons, List.flatten_cons, List.length_append, List.sum_cons, ih]

theorem length_idealSI (l : List RaggedArray) :
    ∀ acc, (idealSI l acc).length =
      (l.map (fun ra => ra.start_indices.length)).sum := by
  induction l with
  | nil => intro acc; rfl
  | cons ra rest ih =>
    intro acc
    unfold idealSI
    simp only [List.length_append, List.length_map, List.map_cons, List.sum_cons,
      ih (acc + ra.flat_array.length)]

theorem fromRaw_ok (w : Nat) (si : List Nat) (fl : List Int)
    (h : ∀ s ∈ si, s ≤ fl.length) :
    RaggedArray.fromRaw w si fl = .ok ⟨w, si, fl⟩ := by
  unfold RaggedArray.fromRaw
  rw [if_neg ?_]
  intro hc
  obtain ⟨s, hs, hlt⟩ := List.any_eq_true.mp hc
  have := h s hs
  simp only [decide_eq_true_eq] at hlt
  omega

theorem concatSame_noWrap (l : List RaggedArray) (hlen : 2 ≤ l.length)
    (hv : ∀ ra ∈ l, StoreValid ra) (hnw : NoWrapFrom l 0) :
    RaggedArray.concatSame l =
      .ok ⟨((concatPieces l 0).map Prod.fst).foldr max 8, idealSI l 0,
        (l.map RaggedArray.flat_array).flatten⟩ := by
  have hbound : ∀ s ∈ ((concatPieces l 0).map Prod.snd).flatten,
      s ≤ ((l.map RaggedArray.flat_array).flatten).length := by
    intro s hs
    rw [concatPieces_si_noWrap l 0 hnw] at hs
    have := idealSI_le l 0 s hv hs
    rw [length_concat_flat]
    omega
  cases l with
  | nil => simp at hlen
  | cons x xs =>
    cases xs with
    | nil => simp at hlen
    | cons y ys =>
      show RaggedArray.fromRaw _ _ _ = _
      rw [fromRaw_ok _ _ _ hbound, concatPieces_si_noWrap _ 0 hnw]

/-- The collapsed-looking but real error path of `_concat_same_type`: with a
single input, `np.cumsum([])` is float64, the shifted offsets lose the
unsigned dtype kind and `_validate_ragged_properties` raises `ValueError`. -/
theorem concatSame_singleton (ra : RaggedArray) :
    RaggedArray.concatSame [ra] = .error .invalidStartIndicesType := rfl

theorem concat_width_ge (l : List RaggedArray) (ra : RaggedArray) (h : ra ∈ l) :
    ∀ acc, ra.width ≤ ((concatPieces l acc).map Prod.fst).foldr max 8 := by
  induction l with
  | nil => simp at h
  | cons x xs ih =>
    intro acc
    unfold concatPieces
    simp only [List.map_cons, List.foldr_cons]
    rcases List.mem_cons.mp h with rfl | h'
    · exact le_max_of_le_left (le_max_left _ _)
    · exact le_max_of_le_right (ih h' (acc + x.flat_array.length))

theorem noWrapFrom_of_bound (l : List RaggedArray) :
    ∀ acc, (∀ ra ∈ l, StoreValid ra) →
      (∀ ra ∈ l, acc + totalFlat l < 2 ^ ra.width) → NoWrapFrom l acc := by
  induction l with
  | nil => intro acc _ _; trivial
  | cons ra rest ih =>
    intro acc hv hb
    refine ⟨?_, ?_⟩
    · intro s hs
      have hval := hv ra (by simp) s hs
      have hbd := hb ra (by simp)
      have hw : (2:Nat) ^ ra.width ≤ 2 ^ shiftWidth ra.width acc :=
        Nat.pow_le_pow_right (by norm_num) (le_max_left _ _)
      unfold totalFlat at hbd
      simp only [List.map_cons, List.sum_cons] at hbd
      omega
    · apply ih (acc + ra.flat_array.length) (fun rb hb' => hv rb (by simp [hb']))
      intro rb hb'
      have := hb rb (by simp [hb'])
      unfold totalFlat at *
      simp only [List.map_cons, List.sum_cons] at *
      omega

theorem flatten_cons_rows (d : List Row) (rest : List (List Row)) :
    (d :: rest).flatten = d ++ rest.flatten := rfl

theorem idealSI_fromRows (ds : List (List Row)) :
    ∀ acc, idealSI (ds.map RaggedArray.fromRows) acc = startIndicesOf ds.flatten acc := by
  induction ds with
  | nil => intro acc; rfl
  | cons d rest ih =>
    intro acc
    unfold idealSI
    simp only [List.map_cons]
    rw [show (RaggedArray.fromRows d).start_indices = startIndicesOf d 0 from rfl,
      show (RaggedArray.fromRows d).flat_array = flatOf d from rfl,
      startIndicesOf_add d acc 0, Nat.zero_add, length_flatOf,
      ih (acc + bufferLenOf d), flatten_cons_rows, startIndicesOf_append]

theorem concat_flat_fromRows (ds : List (List Row)) :
    ((ds.map RaggedArray.fromRows).map RaggedArray.flat_array).flatten =
      flatOf ds.flatten := by
  induction ds with
  | nil => rfl
  | cons d rest ih =>
    simp only [List.map_cons, List.flatten_cons]
    rw [show (RaggedArray.fromRows d).flat_array = flatOf d from rfl, ih, flatOf_append]

/-- C1 (amended): for a list of at least two stores built from row inputs
(a one-store concat always fails NumPy's dtype validation, because
`np.cumsum([])` makes the lone shift scalar float64 — see
`concatSame_singleton`), as long as no shifted offset overflows its
NumPy-promoted dtype (`NoWrapFrom`), `concat` succeeds and returns the store whose offsets are
each input's offsets shifted by the cumulative flat length of the preceding
inputs, whose flat buffer is the concatenation of the inputs' buffers —
i.e. exactly the buffers of a store rebuilt from the concatenated row
inputs — whose rows are the inputs' (normalized) rows in input order then
within-input order, and whose offsets satisfy invariants 1–5 (sorted,
bounded by the combined `M`, row count the sum of the inputs' counts).  The
offset dtype is *not* re-validated against the combined `M`: outside the
`NoWrapFrom` regime the additions wrap (see the counterexample). -/
theorem concat_spec (ds : List (List Row)) (hlen : 2 ≤ ds.length)
    (hnw : NoWrapFrom (ds.map RaggedArray.fromRows) 0) :
    ∃ r, RaggedArray.concatSame (ds.map RaggedArray.fromRows) = .ok r ∧
      r.start_indices = idealSI (ds.map RaggedArray.fromRows) 0 ∧
      r.start_indices = (RaggedArray.fromRows ds.flatten).start_indices ∧
      r.flat_array = (RaggedArray.fromRows ds.flatten).flat_array ∧
      r.rowsList = (ds.map (fun d => d.map normalizeRow)).flatten ∧
      r.start_indices.length = (ds.map List.length).sum ∧
      offsetsOrdered r := by
  have hv : ∀ ra ∈ ds.map RaggedArray.fromRows, StoreValid ra := by
    intro ra hra
    obtain ⟨d, -, rfl⟩ := List.mem_map.mp hra
    exact fromRows_StoreValid d
  have hmap : 2 ≤ (ds.map RaggedArray.fromRows).length := by simpa using hlen
  have hok := concatSame_noWrap _ hmap hv hnw
  refine ⟨_, hok, rfl, ?_, ?_, ?_, ?_, ?_, ?_⟩
  · show idealSI (ds.map RaggedArray.fromRows) 0 =
      (RaggedArray.fromRows ds.flatten).start_indices
    rw [idealSI_fromRows ds 0]
    rfl
  · show ((ds.map RaggedArray.fromRows).map RaggedArray.flat_array).flatten =
      (RaggedArray.fromRows ds.flatten).flat_array
    rw [concat_flat_fromRows ds]
    rfl
  · show RaggedArray.rowsList _ = _
    rw [show (⟨((concatPieces (ds.map RaggedArray.fromRows) 0).map Prod.fst).foldr max 8,
        idealSI (ds.map RaggedArray.fromRows) 0,
        ((ds.map RaggedArray.fromRows).map RaggedArray.flat_array).flatten⟩ : RaggedArray) =
      ⟨((concatPieces (ds.map RaggedArray.fromRows) 0).map Prod.fst).foldr max 8,
        startIndicesOf ds.flatten 0, flatOf ds.flatten⟩ by
        rw [idealSI_fromRows ds 0, concat_flat_fromRows ds]]
    rw [rowsList_build, List.map_flatten]
  · show (idealSI (ds.map RaggedArray.fromRows) 0).length = (ds.map List.length).sum
    rw [length_idealSI, List.map_map]
    congr 1
    apply List.map_congr_left
    intro d _
    show (RaggedArray.fromRows d).start_indices.length = d.length
    rw [show (RaggedArray.fromRows d).start_indices = startIndicesOf d 0 from rfl,
      length_startIndicesOf]
  · show List.Pairwise (· ≤ ·) (idealSI (ds.map RaggedArray.fromRows) 0)
    rw [idealSI_fromRows ds 0]
    exact pairwise_startIndicesOf ds.flatten 0
  · show ∀ s ∈ idealSI (ds.map RaggedArray.fromRows) 0,
      s ≤ ((ds.map RaggedArray.fromRows).map RaggedArray.flat_array).flatten.length
    intro s hs
    have := idealSI_le _ 0 s hv hs
    rw [length_concat_flat]
    omega

/-- Witness: two `uint8` stores whose combined `M = 300` exceeds the `uint8`
max 255, but whose shifted offsets (at most 250) all still fit, concatenate
exactly. -/
theorem concat_spec_witness :
    (RaggedArray.concatSame ([wRowsA, wRowsB].map RaggedArray.fromRows)).map
      RaggedArray.start_indices = .ok [0, 100, 200, 250] := by
  obtain ⟨r, h1, h2, -, -, -, -, -⟩ := concat_spec [wRowsA, wRowsB] (by decide) (by decide)
  rw [h1]
  show Except.ok r.start_indices = Except.ok [0, 100, 200, 250]
  rw [h2]
  decide

/-- C1 counterexample: concatenating `cexA` (M=200, uint8) with `cexB`
(M=100, uint8) gives combined `M = 300 > 255`, cexB's offset-width max.  The
shift of cexB's offset 60 by 200 wraps modulo 256 to 4 instead of 260: the
result's offsets are *not* the shifted offsets, no widening happens, and row
2 of the result reads back as an empty subrange (`flat[200:4]`) even though
cexB's row 0 has 60 elements. -/
theorem concat_shift_cex :
    (RaggedArray.concatSame [cexA, cexB]).map RaggedArray.start_indices =
      .ok [0, 100, 200, 4] ∧
    idealSI [cexA, cexB] 0 = [0, 100, 200, 260] ∧
    cexB.width = 8 ∧ 2 ^ 8 - 1 < totalFlat [cexA, cexB] ∧
    (RaggedArray.concatSame [cexA, cexB]).map (fun r => r.getRow 2) = .ok (some []) ∧
    cexB.getRow 0 = some (List.replicate 60 1) := by decide

theorem rowsList_congr (r1 r2 : RaggedArray) (hsi : r1.start_indices = r2.start_indices)
    (hfl : r1.flat_array = r2.flat_array) : r1.rowsList = r2.rowsList := by
  cases r1 with
  | mk w1 si1 fl1 =>
    cases r2 with
    | mk w2 si2 fl2 =>
      dsimp only at hsi hfl
      subst hsi
      subst hfl
      rfl

theorem idealSI_pair (x y : RaggedArray) :
    idealSI [x, y] 0 =
      x.start_indices ++ y.start_indices.map (· + x.flat_array.length) := by
  simp [idealSI]

theorem idealSI_triple (x y z : RaggedArray) :
    idealSI [x, y, z] 0 =
      x.start_indices ++ y.start_indices.map (· + x.flat_array.length) ++
        z.start_indices.map (· + (x.flat_array.length + y.flat_array.length)) := by
  simp [idealSI, List.append_assoc]

theorem concat_flat_pair (x y : RaggedArray) :
    (([x, y]).map RaggedArray.flat_array).flatten = x.flat_array ++ y.flat_array := by
  simp

theorem concat_flat_triple (x y z : RaggedArray) :
    (([x, y, z]).map RaggedArray.flat_array).flatten =
      x.flat_array ++ (y.flat_array ++ z.flat_array) := by
  simp

theorem totalFlat_pair (x y : RaggedArray) :
    totalFlat [x, y] = x.flat_array.length + y.flat_array.length := by
  simp [totalFlat]

theorem totalFlat_triple (x y z : RaggedArray) :
    totalFlat [x, y, z] =
      x.flat_array.length + (y.flat_array.length + z.flat_array.length) := by
  simp [totalFlat]

theorem concat_result_valid (l : List RaggedArray) (w : Nat)
    (hv : ∀ ra ∈ l, StoreValid ra) :
    StoreValid ⟨w, idealSI l 0, (l.map RaggedArray.flat_array).flatten⟩ := by
  intro s hs
  have := idealSI_le l 0 s hv hs
  show s ≤ ((l.map RaggedArray.flat_array).flatten).length
  rw [length_concat_flat]
  omega

theorem map_shift_shift (l : List Nat) (a b : Nat) :
    (l.map (· + b)).map (· + a) = l.map (· + (a + b)) := by
  rw [List.map_map]
  apply List.map_congr_left
  intro x _
  simp only [Function.comp_apply]
  omega

/-- C9 (amended): for stores built from row inputs whose combined element
count is below every input's offset-width capacity (so no shifted offset can
wrap), `concat([concat([a,b]), c])`, `concat([a, concat([b,c])])` and
`concat([a,b,c])` all succeed and produce stores with identical offsets,
identical flat buffers, and hence equal row counts and equal rows at every
index.  Outside that regime the offset shifts wrap modulo the promoted
dtype and associativity fails (see the counterexample). -/
theorem concat_assoc_spec (da db dc : List Row)
    (ha : bufferLenOf da + bufferLenOf db + bufferLenOf dc <
      2 ^ (RaggedArray.fromRows da).width)
    (hb : bufferLenOf da + bufferLenOf db + bufferLenOf dc <
      2 ^ (RaggedArray.fromRows db).width)
    (hc : bufferLenOf da + bufferLenOf db + bufferLenOf dc <
      2 ^ (RaggedArray.fromRows dc).width) :
    ∃ r1 r2 r3,
      (RaggedArray.concatSame [RaggedArray.fromRows da, RaggedArray.fromRows db]).bind
        (fun ab => RaggedArray.concatSame [ab, RaggedArray.fromRows dc]) = .ok r1 ∧
      (RaggedArray.concatSame [RaggedArray.fromRows db, RaggedArray.fromRows dc]).bind
        (fun bc => RaggedArray.concatSame [RaggedArray.fromRows da, bc]) = .ok r2 ∧
      RaggedArray.concatSame [RaggedArray.fromRows da, RaggedArray.fromRows db,
        RaggedArray.fromRows dc] = .ok r3 ∧
      r1.start_indices = r3.start_indices ∧ r2.start_indices = r3.start_indices ∧
      r1.flat_array = r3.flat_array ∧ r2.flat_array = r3.flat_array ∧
      r1.rowsList = r3.rowsList ∧ r2.rowsList = r3.rowsList ∧
      r1.start_indices.length = r3.start_indices.length ∧
      r2.start_indices.length = r3.start_indices.length := by
  set A := RaggedArray.fromRows da with hAdef
  set B := RaggedArray.fromRows db with hBdef
  set C := RaggedArray.fromRows dc with hCdef
  have hvA : StoreValid A := fromRows_StoreValid da
  have hvB : StoreValid B := fromRows_StoreValid db
  have hvC : StoreValid C := fromRows_StoreValid dc
  have hMa : A.flat_array.length = bufferLenOf da := fromRows_flat_len da
  have hMb : B.flat_array.length = bufferLenOf db := fromRows_flat_len db
  have hMc : C.flat_array.length = bufferLenOf dc := fromRows_flat_len dc
  -- concat of [A, B]
  have hvABl : ∀ ra ∈ [A, B], StoreValid ra := by
    intro ra hra
    rcases (by simpa using hra : ra = A ∨ ra = B) with rfl | rfl
    · exact hvA
    · exact hvB
  have hnwAB : NoWrapFrom [A, B] 0 := by
    apply noWrapFrom_of_bound [A, B] 0 hvABl
    intro ra hra
    rw [totalFlat_pair, hMa, hMb]
    rcases (by simpa using hra : ra = A ∨ ra = B) with rfl | rfl
    · omega
    · omega
  have hAB := concatSame_noWrap [A, B] (by simp) hvABl hnwAB
  -- concat of [B, C]
  have hvBCl : ∀ ra ∈ [B, C], StoreValid ra := by
    intro ra hra
    rcases (by simpa using hra : ra = B ∨ ra = C) with rfl | rfl
    · exact hvB
    · exact hvC
  have hnwBC : NoWrapFrom [B, C] 0 := by
    apply noWrapFrom_of_bound [B, C] 0 hvBCl
    intro ra hra
    rw [totalFlat_pair, hMb, hMc]
    rcases (by simpa using hra : ra = B ∨ ra = C) with rfl | rfl
    · omega
    · omega
  have hBC := concatSame_noWrap [B, C] (by simp) hvBCl hnwBC
  -- concat of [A, B, C]
  have hvABCl : ∀ ra ∈ [A, B, C], StoreValid ra := by
    intro ra hra
    rcases (by simpa using hra : ra = A ∨ ra = B ∨ ra = C) with rfl | rfl | rfl
    · exact hvA
    · exact hvB
    · exact hvC
  have hnwABC : NoWrapFrom [A, B, C] 0 := by
    apply noWrapFrom_of_bound [A, B, C] 0 hvABCl
    intro ra hra
    rw [totalFlat_triple, hMa, hMb, hMc]
    rcases (by simpa using hra : ra = A ∨ ra = B ∨ ra = C) with rfl | rfl | rfl
    · omega
    · omega
    · omega
  have hT := concatSame_noWrap [A, B, C] (by simp) hvABCl hnwABC
  -- the intermediate stores
  set AB : RaggedArray := ⟨((concatPieces [A, B] 0).map Prod.fst).foldr max 8,
    idealSI [A, B] 0, (([A, B]).map RaggedArray.flat_array).flatten⟩ with hABdef
  set BC : RaggedArray := ⟨((concatPieces [B, C] 0).map Prod.fst).foldr max 8,
    idealSI [B, C] 0, (([B, C]).map RaggedArray.flat_array).flatten⟩ with hBCdef
  have hABflen : AB.flat_array.length = A.flat_array.length + B.flat_array.length := by
    show (([A, B]).map RaggedArray.flat_array).flatten.length = _
    rw [length_concat_flat, totalFlat_pair]
  have hBCflen : BC.flat_array.length = B.flat_array.length + C.flat_array.length := by
    show (([B, C]).map RaggedArray.flat_array).flatten.length = _
    rw [length_concat_flat, totalFlat_pair]
  have hvAB : StoreValid AB := concat_result_valid [A, B] _ hvABl
  have hvBC : StoreValid BC := concat_result_valid [B, C] _ hvBCl
  have hpowAB : (2:Nat) ^ A.width ≤ 2 ^ AB.width := by
    apply Nat.pow_le_pow_right (by norm_num)
    exact concat_width_ge [A, B] A (by simp) 0
  have hpowBC : (2:Nat) ^ B.width ≤ 2 ^ BC.width := by
    apply Nat.pow_le_pow_right (by norm_num)
    exact concat_width_ge [B, C] B (by simp) 0
  -- left-nested concat [AB, C]
  have hvLl : ∀ ra ∈ [AB, C], StoreValid ra := by
    intro ra hra
    rcases (by simpa using hra : ra = AB ∨ ra = C) with rfl | rfl
    · exact hvAB
    · exact hvC
  have hnwL : NoWrapFrom [AB, C] 0 := by
    apply noWrapFrom_of_bound [AB, C] 0 hvLl
    intro ra hra
    rw [totalFlat_pair, hABflen, hMa, hMb, hMc]
    rcases (by simpa using hra : ra = AB ∨ ra = C) with rfl | rfl
    · omega
    · omega
  have hL := concatSame_noWrap [AB, C] (by simp) hvLl hnwL
  -- right-nested concat [A, BC]
  have hvRl : ∀ ra ∈ [A, BC], StoreValid ra := by
    intro ra hra
    rcases (by simpa using hra : ra = A ∨ ra = BC) with rfl | rfl
    · exact hvA
    · exact hvBC
  have hnwR : NoWrapFrom [A, BC] 0 := by
    apply noWrapFrom_of_bound [A, BC] 0 hvRl
    intro ra hra
    rw [totalFlat_pair, hBCflen, hMa, hMb, hMc]
    rcases (by simpa using hra : ra = A ∨ ra = BC) with rfl | rfl
    · omega
    · omega
  have hR := concatSame_noWrap [A, BC] (by simp) hvRl hnwR
  -- the three results agree on buffers
  have hsi1 : idealSI [AB, C] 0 = idealSI [A, B, C] 0 := by
    rw [idealSI_pair, idealSI_triple, hABflen,
      show AB.start_indices = idealSI [A, B] 0 from rfl, idealSI_pair,
      List.append_assoc]
  have hsi2 : idealSI [A, BC] 0 = idealSI [A, B, C] 0 := by
    rw [idealSI_pair, idealSI_triple,
      show BC.start_indices = idealSI [B, C] 0 from rfl, idealSI_pair,
      List.map_append, map_shift_shift, List.append_assoc]
  have hfl1 : (([AB, C]).map RaggedArray.flat_array).flatten =
      (([A, B, C]).map RaggedArray.flat_array).flatten := by
    rw [concat_flat_pair, concat_flat_triple,
      show AB.flat_array = (([A, B]).map RaggedArray.flat_array).flatten from rfl,
      concat_flat_pair, List.append_assoc]
  have hfl2 : (([A, BC]).map RaggedArray.flat_array).flatten =
      (([A, B, C]).map RaggedArray.flat_array).flatten := by
    rw [concat_flat_pair, concat_flat_triple,
      show BC.flat_array = (([B, C]).map RaggedArray.flat_array).flatten from rfl,
      concat_flat_pair]
  refine ⟨⟨((concatPieces [AB, C] 0).map Prod.fst).foldr max 8, idealSI [AB, C] 0,
      (([AB, C]).map RaggedArray.flat_array).flatten⟩,
    ⟨((concatPieces [A, BC] 0).map Prod.fst).foldr max 8, idealSI [A, BC] 0,
      (([A, BC]).map RaggedArray.flat_array).flatten⟩,
    ⟨((concatPieces [A, B, C] 0).map Prod.fst).foldr max 8, idealSI [A, B, C] 0,
      (([A, B, C]).map RaggedArray.flat_array).flatten⟩,
    ?_, ?_, hT, hsi1, hsi2, hfl1, hfl2,
    rowsList_congr _ _ hsi1 hfl1, rowsList_congr _ _ hsi2 hfl2,
    congrArg List.length hsi1, congrArg List.length hsi2⟩
  · rw [hAB]
    show RaggedArray.concatSame [AB, C] = _
    exact hL
  · rw [hBC]
    show RaggedArray.concatSame [A, BC] = _
    exact hR

/-- Witness: three tiny stores (combined M = 5, all uint8) concatenate
associatively. -/
theorem concat_assoc_spec_witness :
    ((RaggedArray.concatSame [RaggedArray.fromRows [some [1, 2]],
        RaggedArray.fromRows [some [3]]]).bind
      (fun ab => RaggedArray.concatSame [ab, RaggedArray.fromRows [some [4, 5]]])).map
        RaggedArray.rowsList =
    (RaggedArray.concatSame [RaggedArray.fromRows [some [1, 2]],
        RaggedArray.fromRows [some [3]],
        RaggedArray.fromRows [some [4, 5]]]).map RaggedArray.rowsList := by
  obtain ⟨r1, r2, r3, h1, h2, h3, -, -, -, -, hr1, -, -, -⟩ :=
    concat_assoc_spec [some [1, 2]] [some [3]] [some [4, 5]]
      (by decide) (by decide) (by decide)
  rw [h1, h3]
  show Except.ok r1.rowsList = Except.ok r3.rowsList
  rw [hr1]

/-- C9 counterexample: with `cexA` (uint8, M=200), `cexB` (uint8, M=100) and
`cexC` (uint8, M=50) — combined M = 350 — the two nested concatenation
orders wrap different shifted offsets (60+200 wraps to 4 in both, but
100+200 wraps to 44 only in the right-nested order, while the left-nested
order promotes 300 to uint16), so the two results have equal row counts yet
different rows: associativity fails. -/
theorem concat_assoc_cex :
    ((RaggedArray.concatSame [cexA, cexB]).bind
      (fun ab => RaggedArray.concatSame [ab, cexC])).map RaggedArray.start_indices =
      .ok [0, 100, 200, 4, 300] ∧
    ((RaggedArray.concatSame [cexB, cexC]).bind
      (fun bc => RaggedArray.concatSame [cexA, bc])).map RaggedArray.start_indices =
      .ok [0, 100, 200, 4, 44] ∧
    ((RaggedArray.concatSame [cexA, cexB]).bind
      (fun ab => RaggedArray.concatSame [ab, cexC])).map RaggedArray.rowsList ≠
    ((RaggedArray.concatSame [cexB, cexC]).bind
      (fun bc => RaggedArray.concatSame [cexA, bc])).map RaggedArray.rowsList ∧
    ((RaggedArray.concatSame [cexA, cexB]).bind
      (fun ab => RaggedArray.concatSame [ab, cexC])).map
        (fun r => r.start_indices.length) =
    ((RaggedArray.concatSame [cexB, cexC]).bind
      (fun bc => RaggedArray.concatSame [cexA, bc])).map
        (fun r => r.start_indices.length) := by decide
